import Mathlib

/-!
Verification of the near-duplicate document fingerprinting engine
(`sycamore/functions/simhash.py`): rolling-hash shingle extraction, bounded
max-heap smallest-k selection, per-tab scrambling, SimHash majority vote, and
the two distance metrics.

Machine integers are modelled as `ℕ` with explicit reduction `% 2 ^ 64` where
the source wraps; Python `assert` statements are modelled by returning
`Option` (`none` = assertion failure); Python's in-place list mutation is
modelled by explicit state passing.  Recursive loops are written with
structural fuel so that every definition evaluates by `decide`/`rfl`; each
entry point supplies fuel that is provably ample.
-/

namespace Simhash

/-- The all-ones 64-bit value `0xFFFFFFFFFFFFFFFF` used by `shinglesCalc` as the
"unfilled slot" sentinel of each heap. -/
def sentinel : ℕ := 0xFFFFFFFFFFFFFFFF

/-- Fuel-structural population count (number of 1 bits).  `popCount n` models
Python's `int.bit_count()` used by `simHashesDistFast`. -/
def popCountAux : ℕ → ℕ → ℕ
  | 0, _ => 0
  | fuel + 1, n => if n = 0 then 0 else n % 2 + popCountAux fuel (n / 2)

/-- Population count of a natural number, with self-fuel. -/
def popCount (n : ℕ) : ℕ := popCountAux n n

/-- Bit counting through the base-2 digit string, modelling the slow path's
`bin(x).count("1")` in `simHashesDistSlow`. -/
def strCount (x : ℕ) : ℕ := (Nat.digits 2 x).count 1

/-- Loop body of `downHeap` from the source, with structural fuel.  The source's
`while idx <= limit` loop with its in-place writes `heap[idx] = kidVal` /
`heap[idx] = val` becomes recursion on an explicit fuel counter; `downHeap`
supplies fuel that is provably sufficient (the index at least doubles each
iteration). -/
def downHeapGo : ℕ → List ℕ → ℕ → ℕ → List ℕ
  | 0, heap, idx, val => heap.set idx val
  | fuel + 1, heap, idx, val =>
    let nn := heap.length - 1
    let limit := nn / 2
    if idx ≤ limit then
      let kid0 := 2 * idx
      let kid := if kid0 < nn ∧ heap.getD kid0 0 < heap.getD (kid0 + 1) 0 then kid0 + 1 else kid0
      let kidVal := heap.getD kid 0
      if kidVal < val then heap.set idx val
      else downHeapGo fuel (heap.set idx kidVal) kid val
    else heap.set idx val

/-- `downHeap heap idx` restores the 1-based binary max-heap property when only
the element at `idx` may be too small (source: `downHeap`). -/
def downHeap (heap : List ℕ) (idx : ℕ) : List ℕ :=
  downHeapGo heap.length heap idx (heap.getD idx 0)

/-- `heapUpdate heap item` replaces the root by `item` and re-heapifies iff
`item` is smaller than the current root (source: `heapUpdate`). -/
def heapUpdate (heap : List ℕ) (item : ℕ) : List ℕ :=
  if item < heap.getD 1 0 then downHeap (heap.set 1 item) 1 else heap

/-- A fresh heap as built by `shinglesCalc`: `courses + 1` slots (slot 0 unused),
all holding the sentinel. -/
def initHeap (courses : ℕ) : List ℕ := List.replicate (courses + 1) sentinel

/-- The 1-based max-heap property over slots `1 .. length - 1` (slot 0 is unused):
every slot with index `j ≥ 2` is bounded by its parent `j / 2`. -/
def isMaxHeap (heap : List ℕ) : Prop :=
  ∀ j, 2 ≤ j → j ≤ heap.length - 1 → heap.getD j 0 ≤ heap.getD (j / 2) 0

/-- `scramble` from the source: multiply by the MT19937-64 f-value and add the
largest prime below `2 ^ 63`, masked to 64 bits. -/
def scramble (val : ℕ) : ℕ :=
  (val * 6364136223846793005 + 9223372036854775783) &&& 0xFFFFFFFFFFFFFFFF

/-- Modelled from the spec: the repository's `RkWindow` (Rabin-Karp rolling hash,
module `sycamore.functions.rabin_karp`) is not among the provided sources.  Per
the spec (§3, §4.1) it owns a circular buffer of the last `window` bytes; each
pushed byte updates the state, and the rolling hash is available once at least
`window` bytes have been fed, else "not yet available".  The hash is a
deterministic pure function of the current window's byte contents; the spec
fixes no hash constants, so a polynomial hash with base 257 modulo `2 ^ 64` is
used here. -/
structure RkWindow where
  window : ℕ
  buf : List ℕ
  fed : ℕ

/-- Modelled from the spec: a fresh rolling-hash window of size `window`. -/
def RkWindow.mkNew (window : ℕ) : RkWindow := ⟨window, [], 0⟩

/-- Modelled from the spec: feed one byte, keeping the last `window` bytes
(`buf` stores them newest first). -/
def RkWindow.hash (w : RkWindow) (x : ℕ) : RkWindow :=
  ⟨w.window, (x :: w.buf).take w.window, w.fed + 1⟩

/-- Modelled from the spec: the deterministic hash of a window's contents
(polynomial rolling hash, base 257, modulo `2 ^ 64`). -/
def polyHash (bytes : List ℕ) : ℕ :=
  bytes.foldl (fun acc b => (acc * 257 + b) % 2 ^ 64) 0

/-- Modelled from the spec: the current rolling hash, or `none` while fewer than
`window` bytes have been fed. -/
def RkWindow.get (w : RkWindow) : Option ℕ :=
  if w.window ≤ w.fed then some (polyHash w.buf.reverse) else none

/-- The inner `for heap in heaps: hh = scramble(hh); heapUpdate(heap, hh)` loop
of `shinglesCalc`: one emitted rolling-hash value is scrambled progressively
and pushed into each tab's heap in order. -/
def processHash (heaps : List (List ℕ)) (hh : ℕ) : List (List ℕ) :=
  (heaps.foldl
    (fun (acc : List (List ℕ) × ℕ) heap =>
      (acc.1 ++ [heapUpdate heap (scramble acc.2)], scramble acc.2))
    ([], hh)).1

/-- Structured view of one pass of `processHash`: tab 0 receives one `scramble`
of the hash, each following tab one more iterate (proof helper, equal to
`processHash` by `processHash_eq_tabbed`). -/
def tabbed (v : ℕ) : List (List ℕ) → List (List ℕ)
  | [] => []
  | heap :: rest => heapUpdate heap (scramble v) :: tabbed (scramble v) rest

/-- Canonical "k smallest values, with multiplicity" of a push sequence: sort
the pushes that are below the sentinel ascending and keep the first `k`
(specification-side helper for the heap invariant). -/
def kSmallest (k : ℕ) (ps : List ℕ) : List ℕ :=
  (List.insertionSort (· ≤ ·) (ps.filter (fun x => decide (x < sentinel)))).take k

/-- The finalization of one tab's heap at the end of `shinglesCalc`: drop
sentinel slots, then sort (if exactly `courses` values), substitute zeros (if
none), or replicate/sort/truncate to `courses + 1` (otherwise).  Python's
`list.sort()` is modelled by `List.insertionSort (· ≤ ·)`, `heap *= copies` by
flattening `copies` replicas. -/
def finalizeHeap (courses : ℕ) (heap : List ℕ) : List ℕ :=
  let vals := heap.filter (fun x => x != sentinel)
  let nn := vals.length
  if nn = courses then List.insertionSort (· ≤ ·) vals
  else if nn = 0 then List.replicate courses 0
  else
    let copies := (courses + nn - 1) / nn
    (List.insertionSort (· ≤ ·) (List.flatten (List.replicate copies vals))).take (courses + 1)

/-- `shinglesCalc` from the source: feed every byte of `text` through the
rolling window, push every emitted hash (scrambled per tab) into the per-tab
heaps, and finalize each heap. -/
def shinglesCalc (text : List ℕ) (window courses tabs : ℕ) : List (List ℕ) :=
  let start : RkWindow × List (List ℕ) :=
    (RkWindow.mkNew window, List.replicate tabs (initHeap courses))
  let result := text.foldl
    (fun st x =>
      let ww := st.1.hash x
      match ww.get with
      | some hh => (ww, processHash st.2 hh)
      | none => (ww, st.2)) start
  result.2.map (finalizeHeap courses)

/-- Fuel-structural two-pointer merge counting matches between two sorted
vectors (loop body of `sortedVectorCmp`); `sortedVectorCmp` supplies ample
fuel. -/
def svcGo : ℕ → List ℕ → List ℕ → ℕ
  | 0, _, _ => 0
  | _ + 1, [], _ => 0
  | _ + 1, _ :: _, [] => 0
  | fuel + 1, a :: ta, b :: tb =>
    if a < b then svcGo fuel ta (b :: tb)
    else if b < a then svcGo fuel (a :: ta) tb
    else 1 + svcGo fuel ta tb

/-- `sortedVectorCmp` from the source: `(match count, max length)` of two sorted
lists via a linear two-pointer merge. -/
def sortedVectorCmp (aVec bVec : List ℕ) : ℕ × ℕ :=
  (svcGo (aVec.length + bVec.length) aVec bVec, max aVec.length bVec.length)

/-- `shinglesDist` from the source.  The `assert aLen == bLen` is modelled by
`none`; Python float division is modelled by exact division in `ℚ`. -/
def shinglesDist (aa bb : List (List ℕ)) : Option ℚ :=
  if aa.length = bb.length then
    let pairs := aa.zip bb
    let numer := (pairs.map fun p => (sortedVectorCmp p.1 p.2).1).sum
    let denom := (pairs.map fun p => (sortedVectorCmp p.1 p.2).2).sum
    if denom = 0 then some 1
    else some (((denom : ℚ) - (numer : ℚ)) / (denom : ℚ))
  else none

/-- `simHash` from the source: bitwise majority vote.  The `while bit` loop
walking `bit` from `2 ^ 63` down to `2 ^ 0` becomes a fold over the bit
positions `63, 62, …, 0`. -/
def simHash (tab : List ℕ) : ℕ :=
  let half := tab.length / 2
  ((List.range 64).reverse).foldl
    (fun rv k =>
      let bit := 2 ^ k
      let cnt := tab.countP (fun x => x &&& bit != 0)
      if half < cnt then rv ||| bit else rv) 0

/-- `simHashesDistFast` from the source: the running minimum, started at 64, of
the per-tab Hamming distances `popcount(a ^ b)`.  The `assert` on equal lengths
is modelled by `none`. -/
def simHashesDistFast (aa bb : List ℕ) : Option ℕ :=
  if aa.length = bb.length then
    some ((aa.zip bb).foldl (fun low p => min low (popCount (p.1 ^^^ p.2))) 64)
  else none

/-- `simHashesDistSlow` from the source: identical to the fast variant except
bits are counted through the binary string (`bin(x).count("1")`). -/
def simHashesDistSlow (aa bb : List ℕ) : Option ℕ :=
  if aa.length = bb.length then
    some ((aa.zip bb).foldl (fun low p => min low (strCount (p.1 ^^^ p.2))) 64)
  else none

/-- The module-level binding: on Python ≥ 3.10 `simHashesDist` is the fast
variant. -/
def simHashesDist : List ℕ → List ℕ → Option ℕ := simHashesDistFast

/-- `simHashText` from the source: `assert (courses & 1) == 1` (modelled by
`none`), then the SimHash of every tab of `shinglesCalc`. -/
def simHashText (text : List ℕ) (window courses tabs : ℕ) : Option (List ℕ) :=
  if courses &&& 1 = 1 then some ((shinglesCalc text window courses tabs).map simHash)
  else none

/-!  Basic list and arithmetic helper lemmas. -/

theorem getD_set_self (l : List ℕ) (i v : ℕ) (h : i < l.length) :
    (l.set i v).getD i 0 = v := by
  simp [List.getD_eq_getElem?_getD, List.getElem?_set_self h]

theorem getD_set_ne (l : List ℕ) (i j v : ℕ) (h : i ≠ j) :
    (l.set i v).getD j 0 = l.getD j 0 := by
  simp [List.getD_eq_getElem?_getD, List.getElem?_set_ne h]

theorem multiset_set (l : List ℕ) : ∀ i v : ℕ, i < l.length →
    (Multiset.ofList (l.set i v)) + {l.getD i 0} = (Multiset.ofList l) + {v} := by
  induction l with
  | nil => intro i v h; simp at h
  | cons a t ih =>
    intro i v h
    cases i with
    | zero =>
      show (Multiset.ofList (v :: t)) + {a} = (Multiset.ofList (a :: t)) + {v}
      rw [add_comm _ ({a} : Multiset ℕ), add_comm _ ({v} : Multiset ℕ),
        Multiset.singleton_add, Multiset.singleton_add, ← Multiset.cons_coe,
        ← Multiset.cons_coe, Multiset.cons_swap]
    | succ i =>
      show (Multiset.ofList (a :: t.set i v)) + {(a :: t).getD (i + 1) 0} =
        (Multiset.ofList (a :: t)) + {v}
      have ht : i < t.length := by simpa using h
      rw [List.getD_cons_succ, ← Multiset.cons_coe, ← Multiset.cons_coe,
        Multiset.cons_add, Multiset.cons_add, ih i v ht]

theorem foldl_min_le_init (l : List ℕ) : ∀ a : ℕ, l.foldl min a ≤ a := by
  induction l with
  | nil => intro a; simp
  | cons x t ih => intro a; exact le_trans (ih (min a x)) (min_le_left a x)

theorem foldl_min_le (l : List ℕ) : ∀ a x : ℕ, x ∈ l → l.foldl min a ≤ x := by
  induction l with
  | nil => intro a x hx; simp at hx
  | cons y t ih =>
    intro a x hx
    rcases List.mem_cons.mp hx with h | h
    · subst h; exact le_trans (foldl_min_le_init t (min a x)) (min_le_right a x)
    · exact ih (min a y) x h

theorem foldl_min_mem (l : List ℕ) : ∀ a : ℕ, l.foldl min a = a ∨ l.foldl min a ∈ l := by
  induction l with
  | nil => intro a; left; rfl
  | cons x t ih =>
    intro a
    rcases ih (min a x) with h | h
    · rcases min_choice a x with hm | hm
      · left; rw [List.foldl_cons, h, hm]
      · right; rw [List.foldl_cons, h, hm]; exact List.mem_cons_self x t
    · right; exact List.mem_cons_of_mem x h

theorem popCountAux_le : ∀ fuel n k : ℕ, n < 2 ^ k → popCountAux fuel n ≤ k := by
  intro fuel
  induction fuel with
  | zero => intro n k _; exact Nat.zero_le k
  | succ fuel ih =>
    intro n k h
    by_cases hn : n = 0
    · simp [popCountAux, hn]
    · have hk : k ≠ 0 := by
        rintro rfl
        simp only [pow_zero, Nat.lt_one_iff] at h
        exact hn h
      obtain ⟨k', rfl⟩ : ∃ k', k = k' + 1 := ⟨k - 1, by omega⟩
      have hdiv : n / 2 < 2 ^ k' := by
        have h2 : n < 2 ^ k' * 2 := by rw [← pow_succ]; exact h
        exact Nat.div_lt_of_lt_mul (by omega)
      have hrec := ih (n / 2) k' hdiv
      have hmod : n % 2 ≤ 1 := Nat.le_of_lt_succ (Nat.mod_lt n (by norm_num))
      simp only [popCountAux, hn, if_false]
      omega

theorem popCount_le (n k : ℕ) (h : n < 2 ^ k) : popCount n ≤ k := popCountAux_le n n k h

theorem zip_self_fst_eq_snd (l : List ℕ) : ∀ p ∈ l.zip l, p.1 = p.2 := by
  induction l with
  | nil => intro p hp; simp at hp
  | cons x t ih =>
    intro p hp
    rcases List.mem_cons.mp hp with h | h
    · rw [h]
    · exact ih p h

/-!  C1, C9, C10: the SimHash vector distance. -/

/-- C1: for equal-length, non-empty lists of 64-bit fingerprints,
`simHashesDist` returns the minimum over corresponding pairs of the Hamming
distance `popcount(a XOR b)` (a lower bound of every pair's distance that is
attained by some pair) — the minimum, not the average. -/
theorem simHashesDist_min (aa bb : List ℕ) (hlen : aa.length = bb.length)
    (hne : aa ≠ []) (ha : ∀ x ∈ aa, x < 2 ^ 64) (hb : ∀ x ∈ bb, x < 2 ^ 64) :
    ∃ d, simHashesDist aa bb = some d ∧
      (∀ p ∈ aa.zip bb, d ≤ popCount (p.1 ^^^ p.2)) ∧
      (∃ p ∈ aa.zip bb, d = popCount (p.1 ^^^ p.2)) := by
  have hfold : ∀ x ∈ aa.zip bb,
      (aa.zip bb).foldl (fun low p => min low (popCount (p.1 ^^^ p.2))) 64 ≤
        popCount (x.1 ^^^ x.2) := by
    intro x hx
    have hm := foldl_min_le ((aa.zip bb).map fun p => popCount (p.1 ^^^ p.2)) 64
      (popCount (x.1 ^^^ x.2)) (List.mem_map_of_mem _ hx)
    rwa [List.foldl_map] at hm
  refine ⟨(aa.zip bb).foldl (fun low p => min low (popCount (p.1 ^^^ p.2))) 64, ?_, hfold, ?_⟩
  · simp [simHashesDist, simHashesDistFast, hlen]
  · obtain ⟨a, ta, rfl⟩ := List.exists_cons_of_ne_nil hne
    obtain ⟨b, tb, rfl⟩ : ∃ b tb, bb = b :: tb := by
      cases bb with
      | nil => simp at hlen
      | cons b tb => exact ⟨b, tb, rfl⟩
    have hhead : ((a, b) : ℕ × ℕ) ∈ (a :: ta).zip (b :: tb) := by simp
    rcases foldl_min_mem (((a :: ta).zip (b :: tb)).map fun p => popCount (p.1 ^^^ p.2)) 64
      with h | h
    · rw [List.foldl_map] at h
      refine ⟨(a, b), hhead, ?_⟩
      show ((a :: ta).zip (b :: tb)).foldl
        (fun low p => min low (popCount (p.1 ^^^ p.2))) 64 = popCount (a ^^^ b)
      have h1 : ((a :: ta).zip (b :: tb)).foldl
          (fun low p => min low (popCount (p.1 ^^^ p.2))) 64 ≤ popCount (a ^^^ b) :=
        hfold (a, b) hhead
      have h2 : popCount (a ^^^ b) ≤ 64 :=
        popCount_le _ 64 (Nat.xor_lt_two_pow (ha a (by simp)) (hb b (by simp)))
      omega
    · rw [List.foldl_map] at h
      rcases List.mem_map.mp h with ⟨p, hp, hpe⟩
      exact ⟨p, hp, hpe.symm⟩

/-- C1 witness: the theorem instantiated at `[3, 5]` vs `[3, 6]`. -/
theorem simHashesDist_min_witness :
    ∃ d, simHashesDist [3, 5] [3, 6] = some d ∧
      (∀ p ∈ ([3, 5] : List ℕ).zip [3, 6], d ≤ popCount (p.1 ^^^ p.2)) ∧
      (∃ p ∈ ([3, 5] : List ℕ).zip [3, 6], d = popCount (p.1 ^^^ p.2)) :=
  simHashesDist_min [3, 5] [3, 6] rfl (by decide) (by decide) (by decide)

/-- C9 counterexample: for the empty vector, `simHashesDist(V, V)` is 64, not 0,
so the claimed self-distance law fails at `V = []`. -/
theorem simHashesDist_self_counterexample :
    simHashesDist [] [] = some 64 ∧ simHashesDist [] [] ≠ some 0 := by decide

/-- C9 (amended): for every non-empty SimHash vector `V`,
`simHashesDist(V, V) = 0`. -/
theorem simHashesDist_self_nonempty (V : List ℕ) (h : V ≠ []) :
    simHashesDist V V = some 0 := by
  obtain ⟨v, t, rfl⟩ := List.exists_cons_of_ne_nil h
  show simHashesDistFast (v :: t) (v :: t) = some 0
  rw [simHashesDistFast, if_pos rfl]
  have hhead : ((v, v) : ℕ × ℕ) ∈ (v :: t).zip (v :: t) := by simp
  have hle := foldl_min_le (((v :: t).zip (v :: t)).map fun p => popCount (p.1 ^^^ p.2)) 64
    (popCount (v ^^^ v)) (List.mem_map_of_mem _ hhead)
  rw [List.foldl_map] at hle
  have hz : popCount (v ^^^ v) = 0 := by rw [Nat.xor_self]; rfl
  rw [hz] at hle
  exact congrArg some (Nat.le_zero.mp hle)

/-- C9 witness: the amended theorem instantiated at `V = [3, 5]`. -/
theorem simHashesDist_self_witness : simHashesDist [3, 5] [3, 5] = some 0 :=
  simHashesDist_self_nonempty [3, 5] (by decide)

/-- C10: on two empty SimHash vectors, both distance implementations return 64
(the running minimum's initial value, never updated) — not 0. -/
theorem simHashesDist_empty :
    simHashesDist [] [] = some 64 ∧ simHashesDistFast [] [] = some 64 ∧
    simHashesDistSlow [] [] = some 64 ∧ simHashesDist [] [] ≠ some 0 := by decide

/-!  C4: the bitwise majority vote of `simHash`. -/

theorem and_two_pow_bne (x b : ℕ) : (x &&& 2 ^ b != 0) = x.testBit b := by
  rw [Nat.and_two_pow]
  cases h : x.testBit b
  · simp
  · have : 2 ^ b ≠ 0 := Nat.pos_iff_ne_zero.mp (Nat.two_pow_pos b)
    simp [this]

theorem countP_and_two_pow (tab : List ℕ) (b : ℕ) :
    tab.countP (fun x => x &&& 2 ^ b != 0) = tab.countP (fun x => x.testBit b) :=
  List.countP_congr (fun x _ => by rw [and_two_pow_bne])

theorem foldl_orbits_testBit (c : ℕ → Prop) [DecidablePred c] :
    ∀ (ks : List ℕ) (rv b : ℕ),
      ((ks.foldl (fun rv k => if c k then rv ||| 2 ^ k else rv) rv).testBit b = true) ↔
        (rv.testBit b = true ∨ (b ∈ ks ∧ c b)) := by
  intro ks
  induction ks with
  | nil => intro rv b; simp
  | cons k t ih =>
    intro rv b
    rw [List.foldl_cons, ih]
    constructor
    · rintro (h | h)
      · by_cases hc : c k
        · rw [if_pos hc, Nat.testBit_or] at h
          rcases Bool.or_eq_true_iff.mp h with h1 | h1
          · exact Or.inl h1
          · have hkb : k = b := by
              by_contra hne
              rw [Nat.testBit_two_pow_of_ne hne] at h1
              exact Bool.false_ne_true h1
            subst hkb
            exact Or.inr ⟨List.mem_cons_self k t, hc⟩
        · rw [if_neg hc] at h; exact Or.inl h
      · exact Or.inr ⟨List.mem_cons_of_mem _ h.1, h.2⟩
    · rintro (h | h)
      · by_cases hc : c k
        · rw [if_pos hc, Nat.testBit_or, h]; simp
        · rw [if_neg hc]; exact Or.inl h
      · rcases List.mem_cons.mp h.1 with hb | hb
        · subst hb
          left
          rw [if_pos h.2, Nat.testBit_or, Nat.testBit_two_pow_self]
          simp
        · exact Or.inr ⟨hb, h.2⟩

theorem simHash_testBit (tab : List ℕ) (b : ℕ) :
    ((simHash tab).testBit b = true) ↔
      (b < 64 ∧ tab.length / 2 < tab.countP (fun x => x.testBit b)) := by
  show (((List.range 64).reverse).foldl
      (fun rv k => if tab.length / 2 < tab.countP (fun x => x &&& 2 ^ k != 0)
        then rv ||| 2 ^ k else rv) 0).testBit b = true ↔ _
  rw [foldl_orbits_testBit (fun k => tab.length / 2 < tab.countP (fun x => x &&& 2 ^ k != 0))]
  rw [countP_and_two_pow]
  simp [Nat.zero_testBit]

/-- C4: `simHash` sets bit `b` (for `b < 64`) iff the number of elements of
`tab` with bit `b` set strictly exceeds `⌊len(tab)/2⌋` (so ties on even-length
input leave the bit unset); in particular `simHash [0,0,0] = 0` and
`simHash` of three all-ones words is all ones. -/
theorem simHash_majority :
    (∀ (tab : List ℕ) (b : ℕ), b < 64 →
      ((simHash tab).testBit b = true ↔
        tab.length / 2 < tab.countP (fun x => x.testBit b))) ∧
    simHash [0, 0, 0] = 0 ∧
    simHash (List.replicate 3 0xFFFFFFFFFFFFFFFF) = 0xFFFFFFFFFFFFFFFF := by
  refine ⟨?_, by decide, by decide⟩
  intro tab b hb
  rw [simHash_testBit]
  exact ⟨fun h => h.2, fun h => ⟨hb, h⟩⟩

/-- C4 witness: bit 1 of `simHash [6, 3, 7]` is set, via the majority
characterization at `b = 1` (all three elements have bit 1 set). -/
theorem simHash_majority_witness : (simHash [6, 3, 7]).testBit 1 = true :=
  (simHash_majority.1 [6, 3, 7] 1 (by decide)).mpr (by decide)

/-!  C5: the scrambler and its per-tab iteration depth. -/

theorem processHash_eq_tabbed_aux :
    ∀ (heaps pre : List (List ℕ)) (v : ℕ),
      (heaps.foldl (fun (acc : List (List ℕ) × ℕ) heap =>
        (acc.1 ++ [heapUpdate heap (scramble acc.2)], scramble acc.2)) (pre, v)).1 =
      pre ++ tabbed v heaps := by
  intro heaps
  induction heaps with
  | nil => intro pre v; simp [tabbed]
  | cons heap rest ih =>
    intro pre v
    rw [List.foldl_cons]
    rw [ih (pre ++ [heapUpdate heap (scramble v)]) (scramble v)]
    simp [tabbed]

theorem processHash_eq_tabbed (heaps : List (List ℕ)) (v : ℕ) :
    processHash heaps v = tabbed v heaps := by
  rw [processHash, processHash_eq_tabbed_aux]
  rfl

theorem tabbed_getD : ∀ (heaps : List (List ℕ)) (v t : ℕ), t < heaps.length →
    (tabbed v heaps).getD t [] = heapUpdate (heaps.getD t []) (scramble^[t + 1] v) := by
  intro heaps
  induction heaps with
  | nil => intro v t ht; simp at ht
  | cons heap rest ih =>
    intro v t ht
    cases t with
    | zero =>
      show (heapUpdate heap (scramble v) :: tabbed (scramble v) rest).getD 0 [] = _
      rw [List.getD_cons_zero]
      rfl
    | succ t =>
      have ht' : t < rest.length := by simpa using ht
      show (heapUpdate heap (scramble v) :: tabbed (scramble v) rest).getD (t + 1) [] = _
      rw [List.getD_cons_succ, ih (scramble v) t ht', List.getD_cons_succ,
        ← Function.iterate_succ_apply]

/-- C5: `scramble x = (x * 6364136223846793005 + 9223372036854775783) mod 2^64`,
and inside `shinglesCalc` the value pushed into tab `t`'s heap for a raw
rolling-hash value `hh` is `scramble` iterated `t + 1` times on `hh`. -/
theorem scramble_tab_iteration :
    (∀ x : ℕ, scramble x = (x * 6364136223846793005 + 9223372036854775783) % 2 ^ 64) ∧
    (∀ (heaps : List (List ℕ)) (hh t : ℕ), t < heaps.length →
      (processHash heaps hh).getD t [] =
        heapUpdate (heaps.getD t []) (scramble^[t + 1] hh)) := by
  constructor
  · intro x
    show (x * 6364136223846793005 + 9223372036854775783) &&& 0xFFFFFFFFFFFFFFFF = _
    have hm : (0xFFFFFFFFFFFFFFFF : ℕ) = 2 ^ 64 - 1 := by norm_num
    rw [hm, Nat.and_pow_two_sub_one_eq_mod]
  · intro heaps hh t ht
    rw [processHash_eq_tabbed]
    exact tabbed_getD heaps hh t ht

/-- C5 witness: with two tabs, tab 1 receives the double scramble of the raw
hash value 3. -/
theorem scramble_tab_iteration_witness :
    (processHash [initHeap 1, initHeap 1] 3).getD 1 [] =
      heapUpdate (([initHeap 1, initHeap 1] : List (List ℕ)).getD 1 [])
        (scramble^[1 + 1] 3) :=
  scramble_tab_iteration.2 [initHeap 1, initHeap 1] 3 1 (by decide)

/-!  C8: the odd-`courses` assertion of `simHashText`. -/

theorem tabbed_length : ∀ (heaps : List (List ℕ)) (v : ℕ),
    (tabbed v heaps).length = heaps.length := by
  intro heaps
  induction heaps with
  | nil => intro v; rfl
  | cons heap rest ih => intro v; simp [tabbed, ih]

theorem calcFold_heaps_length :
    ∀ (text : List ℕ) (st : RkWindow × List (List ℕ)),
      ((text.foldl (fun st x =>
        let ww := RkWindow.hash st.1 x
        match ww.get with
        | some hh => (ww, processHash st.2 hh)
        | none => (ww, st.2)) st).2).length = st.2.length := by
  intro text
  induction text with
  | nil => intro st; rfl
  | cons x t ih =>
    intro st
    rw [List.foldl_cons]
    cases hg : (RkWindow.hash st.1 x).get with
    | none => rw [ih]; simp [hg]
    | some hh =>
      rw [ih]
      simp only [hg]
      rw [processHash_eq_tabbed, tabbed_length]

theorem shinglesCalc_length (text : List ℕ) (window courses tabs : ℕ) :
    (shinglesCalc text window courses tabs).length = tabs := by
  show ((text.foldl _ (RkWindow.mkNew window, List.replicate tabs (initHeap courses))).2.map
    (finalizeHeap courses)).length = tabs
  rw [List.length_map, calcFold_heaps_length]
  exact List.length_replicate tabs (initHeap courses)

/-- C8: `simHashText` fails its assertion (modelled as `none`) exactly when
`courses` is even; for odd `courses` it returns `simHash` mapped over the tabs
of `shinglesCalc`; `shinglesCalc` itself performs no parity validation and
produces its `tabs` lists for every `courses`. -/
theorem simHashText_assert (text : List ℕ) (window courses tabs : ℕ) :
    (courses % 2 = 0 → simHashText text window courses tabs = none) ∧
    (courses % 2 = 1 → simHashText text window courses tabs =
      some ((shinglesCalc text window courses tabs).map simHash)) ∧
    (shinglesCalc text window courses tabs).length = tabs := by
  refine ⟨?_, ?_, shinglesCalc_length text window courses tabs⟩
  · intro h
    rw [simHashText, if_neg]
    rw [Nat.and_one_is_mod]
    omega
  · intro h
    rw [simHashText, if_pos]
    rw [Nat.and_one_is_mod]
    exact h

/-- C8 witness: even `courses = 4` trips the assertion; odd `courses = 3`
passes and maps `simHash` over the shingle matrix. -/
theorem simHashText_assert_witness :
    simHashText [] 32 4 10 = none ∧
      simHashText [] 32 3 2 = some ((shinglesCalc [] 32 3 2).map simHash) :=
  ⟨(simHashText_assert [] 32 4 10).1 (by decide),
    (simHashText_assert [] 32 3 2).2.1 (by decide)⟩

/-!  C6: the shingle-matrix distance. -/

theorem svcGo_le : ∀ (fuel : ℕ) (a b : List ℕ),
    svcGo fuel a b ≤ min a.length b.length := by
  intro fuel
  induction fuel with
  | zero => intro a b; exact Nat.zero_le _
  | succ fuel ih =>
    intro a b
    cases a with
    | nil => simp [svcGo]
    | cons x ta =>
      cases b with
      | nil => simp [svcGo]
      | cons y tb =>
        rw [svcGo]
        by_cases hxy : x < y
        · rw [if_pos hxy]
          have h1 := ih ta (y :: tb)
          simp only [List.length_cons] at h1 ⊢
          omega
        · rw [if_neg hxy]
          by_cases hyx : y < x
          · rw [if_pos hyx]
            have h1 := ih (x :: ta) tb
            simp only [List.length_cons] at h1 ⊢
            omega
          · rw [if_neg hyx]
            have h1 := ih ta tb
            simp only [List.length_cons]
            omega

theorem sortedVectorCmp_le (aVec bVec : List ℕ) :
    (sortedVectorCmp aVec bVec).1 ≤ (sortedVectorCmp aVec bVec).2 :=
  le_trans (svcGo_le (aVec.length + bVec.length) aVec bVec) min_le_max

theorem sum_matches_le (pairs : List (List ℕ × List ℕ)) :
    (pairs.map fun p => (sortedVectorCmp p.1 p.2).1).sum ≤
      (pairs.map fun p => (sortedVectorCmp p.1 p.2).2).sum := by
  induction pairs with
  | nil => simp
  | cons p t ih =>
    simp only [List.map_cons, List.sum_cons]
    exact Nat.add_le_add (sortedVectorCmp_le p.1 p.2) ih

/-- C6: for matrices with equally many tabs, `shinglesDist` returns
`(D - M) / D` where `M` sums the per-tab two-pointer match counts and `D` sums
the per-tab maximum lengths, returns exactly 1 when `D = 0`, and the result
always lies in `[0, 1]`. -/
theorem shinglesDist_formula (aa bb : List (List ℕ)) (h : aa.length = bb.length) :
    shinglesDist aa bb =
      some (if ((aa.zip bb).map fun p => (sortedVectorCmp p.1 p.2).2).sum = 0 then 1
        else (((((aa.zip bb).map fun p => (sortedVectorCmp p.1 p.2).2).sum : ℕ) : ℚ) -
            ((((aa.zip bb).map fun p => (sortedVectorCmp p.1 p.2).1).sum : ℕ) : ℚ)) /
          ((((aa.zip bb).map fun p => (sortedVectorCmp p.1 p.2).2).sum : ℕ) : ℚ)) ∧
    (∀ r : ℚ, shinglesDist aa bb = some r → 0 ≤ r ∧ r ≤ 1) := by
  have hMD := sum_matches_le (aa.zip bb)
  constructor
  · simp only [shinglesDist, if_pos h]
    split
    · rfl
    · rfl
  · intro r hr
    simp only [shinglesDist, if_pos h] at hr
    split at hr
    · rw [Option.some.injEq] at hr
      rw [← hr]
      norm_num
    · rw [Option.some.injEq] at hr
      rename_i hD
      have hDpos : (0 : ℚ) <
          (((aa.zip bb).map fun p => (sortedVectorCmp p.1 p.2).2).sum : ℚ) := by
        exact_mod_cast Nat.pos_of_ne_zero hD
      rw [← hr]
      constructor
      · apply div_nonneg _ (le_of_lt hDpos)
        rw [sub_nonneg]
        exact_mod_cast hMD
      · rw [div_le_one hDpos]
        have : (0 : ℚ) ≤
            (((aa.zip bb).map fun p => (sortedVectorCmp p.1 p.2).1).sum : ℚ) := by
          exact_mod_cast Nat.zero_le _
        linarith

/-- C6 witness: at two concrete matrices (`M = 2`, `D = 3`) the distance is
`1/3`, which the theorem places in `[0, 1]`. -/
theorem shinglesDist_formula_witness : (0 : ℚ) ≤ 1 / 3 ∧ (1 / 3 : ℚ) ≤ 1 :=
  (shinglesDist_formula [[1, 2], [3]] [[2, 4], [3]] rfl).2 (1 / 3) (by
    show shinglesDist [[1, 2], [3]] [[2, 4], [3]] = some (1 / 3 : ℚ)
    simp only [shinglesDist]
    norm_num [sortedVectorCmp, svcGo])

/-!  C3: the heap finalization policy of `shinglesCalc`. -/

theorem ceil_div_bounds (courses n : ℕ) (hn : 0 < n) (hc : n < courses) :
    courses ≤ n * ((courses + n - 1) / n) ∧
      n * ((courses + n - 1) / n) < courses + n := by
  have hcopies : (courses + n - 1) / n = (courses - 1) / n + 1 := by
    have h1 : courses + n - 1 = (courses - 1) + n := by omega
    rw [h1, Nat.add_div_right _ hn]
  have hd := Nat.div_add_mod (courses - 1) n
  have hm : (courses - 1) % n < n := Nat.mod_lt _ hn
  rw [hcopies, Nat.mul_succ]
  omega

/-- C3: when the stream yields fewer raw hashes than `courses`, `shinglesCalc`
finalizes each tab's heap by: zero retained values ↦ `[0] * courses`;
`0 < n < courses` retained values ↦ the retained list replicated
`⌈courses / n⌉` times (the factor is the least one reaching `courses`
elements), sorted ascending, truncated to the first `courses + 1` elements;
exactly `courses` retained values ↦ sorted ascending, as-is.  In particular
`shinglesCalc b"" 32 29 10` is ten copies of `[0] * 29`. -/
theorem finalize_policy :
    (∀ courses (heap vals : List ℕ), vals = heap.filter (fun x => x != sentinel) →
      vals.length = 0 → finalizeHeap courses heap = List.replicate courses 0) ∧
    (∀ courses (heap vals : List ℕ), vals = heap.filter (fun x => x != sentinel) →
      0 < vals.length → vals.length < courses →
      (courses ≤ vals.length * ((courses + vals.length - 1) / vals.length) ∧
        vals.length * ((courses + vals.length - 1) / vals.length) < courses + vals.length) ∧
      ∃ s, List.Sorted (· ≤ ·) s ∧
        s.Perm (List.flatten (List.replicate ((courses + vals.length - 1) / vals.length) vals)) ∧
        finalizeHeap courses heap = s.take (courses + 1)) ∧
    (∀ courses (heap vals : List ℕ), vals = heap.filter (fun x => x != sentinel) →
      vals.length = courses →
      List.Sorted (· ≤ ·) (finalizeHeap courses heap) ∧
      (finalizeHeap courses heap).Perm vals) ∧
    shinglesCalc [] 32 29 10 = List.replicate 10 (List.replicate 29 0) := by
  refine ⟨?_, ?_, ?_, by decide⟩
  · intro courses heap vals hv h0
    have hnil : heap.filter (fun x => x != sentinel) = [] := by
      rw [← hv]
      exact List.length_eq_zero.mp h0
    by_cases hc : courses = 0
    · subst hc
      simp [finalizeHeap, hnil]
    · have h1 : ¬((0 : ℕ) = courses) := by omega
      simp [finalizeHeap, hnil, h1]
  · intro courses heap vals hv h0 hlt
    subst hv
    refine ⟨ceil_div_bounds courses _ h0 hlt, ?_⟩
    refine ⟨List.insertionSort (· ≤ ·)
      (List.flatten (List.replicate
        ((courses + (heap.filter (fun x => x != sentinel)).length - 1) /
          (heap.filter (fun x => x != sentinel)).length)
        (heap.filter (fun x => x != sentinel)))), ?_, ?_, ?_⟩
    · exact List.sorted_insertionSort _ _
    · exact List.perm_insertionSort _ _
    · rw [finalizeHeap]
      rw [if_neg (by omega), if_neg (by omega)]
  · intro courses heap vals hv hc
    subst hv
    rw [finalizeHeap, if_pos hc]
    exact ⟨List.sorted_insertionSort _ _, List.perm_insertionSort _ _⟩

/-- C3 witness: a heap retaining `[5, 3]` with `courses = 3` goes through the
replicate-sort-truncate branch (`⌈3/2⌉ = 2` copies), and the branch conditions
hold concretely. -/
theorem finalize_policy_witness :
    (3 ≤ ([5, 3] : List ℕ).length * ((3 + ([5, 3] : List ℕ).length - 1) / ([5, 3] : List ℕ).length) ∧
      ([5, 3] : List ℕ).length * ((3 + ([5, 3] : List ℕ).length - 1) / ([5, 3] : List ℕ).length) <
        3 + ([5, 3] : List ℕ).length) ∧
    ∃ s, List.Sorted (· ≤ ·) s ∧
      s.Perm (List.flatten (List.replicate
        ((3 + ([5, 3] : List ℕ).length - 1) / ([5, 3] : List ℕ).length) [5, 3])) ∧
      finalizeHeap 3 [sentinel, 5, 3, sentinel] = s.take (3 + 1) :=
  finalize_policy.2.1 3 [sentinel, 5, 3, sentinel] [5, 3] (by decide) (by decide) (by decide)

/-!  Heap lemmas for C7 and C2: `downHeap` preserves length, slot 0 and the
multiset of entries, and restores the max-heap property. -/

theorem downHeapGo_succ (fuel : ℕ) (heap : List ℕ) (idx val : ℕ) :
    downHeapGo (fuel + 1) heap idx val =
      if idx ≤ (heap.length - 1) / 2 then
        if heap.getD (if 2 * idx < heap.length - 1 ∧
            heap.getD (2 * idx) 0 < heap.getD (2 * idx + 1) 0
          then 2 * idx + 1 else 2 * idx) 0 < val
        then heap.set idx val
        else downHeapGo fuel
          (heap.set idx (heap.getD (if 2 * idx < heap.length - 1 ∧
              heap.getD (2 * idx) 0 < heap.getD (2 * idx + 1) 0
            then 2 * idx + 1 else 2 * idx) 0))
          (if 2 * idx < heap.length - 1 ∧
              heap.getD (2 * idx) 0 < heap.getD (2 * idx + 1) 0
            then 2 * idx + 1 else 2 * idx)
          val
      else heap.set idx val := rfl

theorem kid_facts (heap : List ℕ) (idx : ℕ) (h1 : 1 ≤ idx)
    (hlim : idx ≤ (heap.length - 1) / 2) :
    (if 2 * idx < heap.length - 1 ∧ heap.getD (2 * idx) 0 < heap.getD (2 * idx + 1) 0
        then 2 * idx + 1 else 2 * idx) / 2 = idx ∧
    idx < (if 2 * idx < heap.length - 1 ∧ heap.getD (2 * idx) 0 < heap.getD (2 * idx + 1) 0
        then 2 * idx + 1 else 2 * idx) ∧
    (if 2 * idx < heap.length - 1 ∧ heap.getD (2 * idx) 0 < heap.getD (2 * idx + 1) 0
        then 2 * idx + 1 else 2 * idx) ≤ heap.length - 1 ∧
    (∀ j, 2 ≤ j → j ≤ heap.length - 1 → j / 2 = idx →
      heap.getD j 0 ≤ heap.getD
        (if 2 * idx < heap.length - 1 ∧ heap.getD (2 * idx) 0 < heap.getD (2 * idx + 1) 0
          then 2 * idx + 1 else 2 * idx) 0) := by
  by_cases hki : 2 * idx < heap.length - 1 ∧ heap.getD (2 * idx) 0 < heap.getD (2 * idx + 1) 0
  · rw [if_pos hki]
    refine ⟨by omega, by omega, by omega, ?_⟩
    intro j h2 hj hpar
    have : j = 2 * idx ∨ j = 2 * idx + 1 := by omega
    rcases this with rfl | rfl
    · exact le_of_lt hki.2
    · exact le_rfl
  · rw [if_neg hki]
    have h2x : 2 * idx ≤ heap.length - 1 := by omega
    refine ⟨by omega, by omega, h2x, ?_⟩
    intro j h2 hj hpar
    have : j = 2 * idx ∨ j = 2 * idx + 1 := by omega
    rcases this with rfl | rfl
    · exact le_rfl
    · have hlt : 2 * idx < heap.length - 1 := by omega
      have := not_and.mp hki hlt
      omega

theorem downHeapGo_length : ∀ (fuel : ℕ) (heap : List ℕ) (idx val : ℕ),
    (downHeapGo fuel heap idx val).length = heap.length := by
  intro fuel
  induction fuel with
  | zero => intro heap idx val; simp [downHeapGo]
  | succ fuel ih =>
    intro heap idx val
    rw [downHeapGo_succ]
    by_cases hlim : idx ≤ (heap.length - 1) / 2
    · rw [if_pos hlim]
      by_cases hbr : heap.getD (if 2 * idx < heap.length - 1 ∧
          heap.getD (2 * idx) 0 < heap.getD (2 * idx + 1) 0
        then 2 * idx + 1 else 2 * idx) 0 < val
      · rw [if_pos hbr]; simp
      · rw [if_neg hbr, ih]; simp
    · rw [if_neg hlim]; simp

theorem downHeapGo_getD0 : ∀ (fuel : ℕ) (heap : List ℕ) (idx val : ℕ), 1 ≤ idx →
    (downHeapGo fuel heap idx val).getD 0 0 = heap.getD 0 0 := by
  intro fuel
  induction fuel with
  | zero =>
    intro heap idx val h1
    exact getD_set_ne heap idx 0 val (by omega)
  | succ fuel ih =>
    intro heap idx val h1
    rw [downHeapGo_succ]
    by_cases hlim : idx ≤ (heap.length - 1) / 2
    · rw [if_pos hlim]
      obtain ⟨hpar, hgt, hle, hmax⟩ := kid_facts heap idx h1 hlim
      by_cases hbr : heap.getD (if 2 * idx < heap.length - 1 ∧
          heap.getD (2 * idx) 0 < heap.getD (2 * idx + 1) 0
        then 2 * idx + 1 else 2 * idx) 0 < val
      · rw [if_pos hbr]; exact getD_set_ne heap idx 0 val (by omega)
      · rw [if_neg hbr, ih _ _ _ (by omega)]
        exact getD_set_ne heap idx 0 _ (by omega)
    · rw [if_neg hlim]; exact getD_set_ne heap idx 0 val (by omega)

theorem downHeapGo_multiset : ∀ (fuel : ℕ) (heap : List ℕ) (idx val : ℕ), 1 ≤ idx →
    Multiset.ofList (downHeapGo fuel heap idx val) = Multiset.ofList (heap.set idx val) := by
  intro fuel
  induction fuel with
  | zero => intro heap idx val _; rfl
  | succ fuel ih =>
    intro heap idx val h1
    rw [downHeapGo_succ]
    by_cases hlim : idx ≤ (heap.length - 1) / 2
    · rw [if_pos hlim]
      obtain ⟨hpar, hgt, hle, hmax⟩ := kid_facts heap idx h1 hlim
      by_cases hbr : heap.getD (if 2 * idx < heap.length - 1 ∧
          heap.getD (2 * idx) 0 < heap.getD (2 * idx + 1) 0
        then 2 * idx + 1 else 2 * idx) 0 < val
      · rw [if_pos hbr]
      · rw [if_neg hbr, ih _ _ _ (by omega)]
        set kid := if 2 * idx < heap.length - 1 ∧
            heap.getD (2 * idx) 0 < heap.getD (2 * idx + 1) 0
          then 2 * idx + 1 else 2 * idx with hkid
        have hidxlen : idx < heap.length := by omega
        have hkidlen : kid < heap.length := by omega
        have e1 := multiset_set (heap.set idx (heap.getD kid 0)) kid val
          (by rw [List.length_set]; omega)
        have hgk : (heap.set idx (heap.getD kid 0)).getD kid 0 = heap.getD kid 0 :=
          getD_set_ne heap idx kid _ (by omega)
        rw [hgk] at e1
        have e2 := multiset_set heap idx (heap.getD kid 0) hidxlen
        have e3 := multiset_set heap idx val hidxlen
        have hL : Multiset.ofList ((heap.set idx (heap.getD kid 0)).set kid val) +
            ({heap.getD kid 0} + {heap.getD idx 0}) =
            (Multiset.ofList heap + {heap.getD kid 0}) + {val} := by
          rw [← add_assoc, e1, add_right_comm, e2]
        have hR : Multiset.ofList (heap.set idx val) +
            ({heap.getD kid 0} + {heap.getD idx 0}) =
            (Multiset.ofList heap + {heap.getD kid 0}) + {val} := by
          rw [← add_assoc, add_right_comm, e3, add_right_comm]
        exact add_right_cancel (hL.trans hR.symm)
    · rw [if_neg hlim]

theorem downHeapGo_maxHeap : ∀ (fuel : ℕ) (heap : List ℕ) (idx val : ℕ),
    1 ≤ idx →
    heap.length ≤ fuel + idx →
    (∀ j, 2 ≤ j → j ≤ heap.length - 1 → j / 2 ≠ idx →
      heap.getD j 0 ≤ heap.getD (j / 2) 0) →
    (2 ≤ idx → val ≤ heap.getD (idx / 2) 0) →
    (∀ j, 2 ≤ j → j ≤ heap.length - 1 → j / 2 = idx → 2 ≤ idx →
      heap.getD j 0 ≤ heap.getD (idx / 2) 0) →
    isMaxHeap (downHeapGo fuel heap idx val) := by
  intro fuel
  induction fuel with
  | zero =>
    intro heap idx val h1 hfuel h2 _ _
    have hge : heap.length ≤ idx := by omega
    show isMaxHeap (heap.set idx val)
    rw [List.set_eq_of_length_le hge]
    intro j hj2 hjlen
    exact h2 j hj2 hjlen (by omega)
  | succ fuel ih =>
    intro heap idx val h1 hfuel h2 h3 h4
    rw [downHeapGo_succ]
    by_cases hlim : idx ≤ (heap.length - 1) / 2
    · rw [if_pos hlim]
      obtain ⟨hpar, hgt, hle, hmax⟩ := kid_facts heap idx h1 hlim
      set kid := if 2 * idx < heap.length - 1 ∧
          heap.getD (2 * idx) 0 < heap.getD (2 * idx + 1) 0
        then 2 * idx + 1 else 2 * idx with hkid
      have hidxlen : idx < heap.length := by omega
      by_cases hbr : heap.getD kid 0 < val
      · rw [if_pos hbr]
        intro j hj2 hjlen
        rw [List.length_set] at hjlen
        by_cases hji : j = idx
        · subst hji
          rw [getD_set_self heap j val hidxlen, getD_set_ne heap j (j / 2) val (by omega)]
          exact h3 hj2
        · by_cases hjp : j / 2 = idx
          · rw [getD_set_ne heap idx j val (by omega), hjp,
              getD_set_self heap idx val hidxlen]
            exact le_of_lt (lt_of_le_of_lt (hmax j hj2 hjlen hjp) hbr)
          · rw [getD_set_ne heap idx j val (by omega),
              getD_set_ne heap idx (j / 2) val (by omega)]
            exact h2 j hj2 hjlen hjp
      · rw [if_neg hbr]
        have hkid2 : 2 ≤ kid := by omega
        apply ih (heap.set idx (heap.getD kid 0)) kid val (by omega)
          (by rw [List.length_set]; omega)
        · intro j hj2 hjlen hjpk
          rw [List.length_set] at hjlen
          by_cases hji : j = idx
          · subst hji
            have hj2i : 2 ≤ j := hj2
            rw [getD_set_self heap j _ hidxlen, getD_set_ne heap j (j / 2) _ (by omega)]
            exact h4 kid hkid2 hle hpar hj2i
          · by_cases hjp : j / 2 = idx
            · rw [getD_set_ne heap idx j _ (by omega), hjp,
                getD_set_self heap idx _ hidxlen]
              exact hmax j hj2 hjlen hjp
            · rw [getD_set_ne heap idx j _ (by omega),
                getD_set_ne heap idx (j / 2) _ (by omega)]
              exact h2 j hj2 hjlen hjp
        · intro _
          rw [hpar, getD_set_self heap idx _ hidxlen]
          omega
        · intro j hj2 hjlen hjpk _
          rw [List.length_set] at hjlen
          have hjne : j ≠ idx := by omega
          rw [getD_set_ne heap idx j _ (by omega), hpar,
            getD_set_self heap idx _ hidxlen]
          have := h2 j hj2 hjlen (by omega)
          rw [hjpk] at this
          exact this
    · rw [if_neg hlim]
      by_cases hil : idx < heap.length
      · intro j hj2 hjlen
        rw [List.length_set] at hjlen
        by_cases hji : j = idx
        · subst hji
          rw [getD_set_self heap j val hil, getD_set_ne heap j (j / 2) val (by omega)]
          exact h3 hj2
        · have hjp : j / 2 ≠ idx := by omega
          rw [getD_set_ne heap idx j val (by omega),
            getD_set_ne heap idx (j / 2) val (by omega)]
          exact h2 j hj2 hjlen hjp
      · rw [List.set_eq_of_length_le (by omega)]
        intro j hj2 hjlen
        exact h2 j hj2 hjlen (by omega)

theorem heapUpdate_length (heap : List ℕ) (item : ℕ) :
    (heapUpdate heap item).length = heap.length := by
  rw [heapUpdate]
  by_cases h : item < heap.getD 1 0
  · rw [if_pos h, downHeap, downHeapGo_length, List.length_set]
  · rw [if_neg h]

theorem heapUpdate_getD0 (heap : List ℕ) (item : ℕ) :
    (heapUpdate heap item).getD 0 0 = heap.getD 0 0 := by
  rw [heapUpdate]
  by_cases h : item < heap.getD 1 0
  · rw [if_pos h, downHeap, downHeapGo_getD0 _ _ _ _ le_rfl]
    exact getD_set_ne heap 1 0 item (by omega)
  · rw [if_neg h]

theorem heapUpdate_isMaxHeap (heap : List ℕ) (item : ℕ) (hmx : isMaxHeap heap) :
    isMaxHeap (heapUpdate heap item) := by
  rw [heapUpdate]
  by_cases h : item < heap.getD 1 0
  · rw [if_pos h, downHeap]
    have hlen2 : 2 ≤ heap.length := by
      by_contra hlen
      have : heap.getD 1 0 = 0 := by
        rw [List.getD_eq_getElem?_getD, List.getElem?_eq_none (by omega)]
        rfl
      omega
    have hval : (heap.set 1 item).getD 1 0 = item := getD_set_self heap 1 item (by omega)
    rw [hval]
    apply downHeapGo_maxHeap _ _ _ _ le_rfl
      (by rw [List.length_set]; omega)
    · intro j hj2 hjlen hjp
      rw [List.length_set] at hjlen
      rw [getD_set_ne heap 1 j item (by omega), getD_set_ne heap 1 (j / 2) item (by omega)]
      exact hmx j hj2 hjlen
    · omega
    · intro j _ _ _ h1
      omega
  · rw [if_neg h]
    exact hmx

theorem isMaxHeap_root_max (heap : List ℕ) (hmx : isMaxHeap heap) :
    ∀ j, 1 ≤ j → j ≤ heap.length - 1 → heap.getD j 0 ≤ heap.getD 1 0 := by
  intro j
  induction j using Nat.strong_induction_on with
  | _ j ih =>
    intro h1 hlen
    by_cases hj1 : j = 1
    · subst hj1; exact le_rfl
    · have hj2 : 2 ≤ j := by omega
      exact le_trans (hmx j hj2 hlen) (ih (j / 2) (by omega) (by omega) (by omega))

theorem heapUpdate_multiset (heap : List ℕ) (item : ℕ) (hlen : 2 ≤ heap.length)
    (h : item < heap.getD 1 0) :
    Multiset.ofList ((heapUpdate heap item).drop 1) + {heap.getD 1 0} =
      Multiset.ofList (heap.drop 1) + {item} := by
  obtain ⟨h0, h1, rest, rfl⟩ : ∃ h0 h1 rest, heap = h0 :: h1 :: rest := by
    cases heap with
    | nil => simp at hlen
    | cons h0 t =>
      cases t with
      | nil => simp at hlen
      | cons h1 rest => exact ⟨h0, h1, rest, rfl⟩
  have hset : (h0 :: h1 :: rest).set 1 item = h0 :: item :: rest := rfl
  have hms0 : Multiset.ofList (heapUpdate (h0 :: h1 :: rest) item) =
      Multiset.ofList (h0 :: item :: rest) := by
    rw [heapUpdate, if_pos h, downHeap, downHeapGo_multiset _ _ _ _ le_rfl, hset]
    rfl
  have hg0 : (heapUpdate (h0 :: h1 :: rest) item).getD 0 0 = h0 :=
    heapUpdate_getD0 (h0 :: h1 :: rest) item
  have hlenres : (heapUpdate (h0 :: h1 :: rest) item).length = rest.length + 2 := by
    rw [heapUpdate_length]; rfl
  obtain ⟨r0, rt, hres⟩ : ∃ r0 rt, heapUpdate (h0 :: h1 :: rest) item = r0 :: rt := by
    cases hres : heapUpdate (h0 :: h1 :: rest) item with
    | nil => rw [hres] at hlenres; simp at hlenres
    | cons r0 rt => exact ⟨r0, rt, rfl⟩
  have hr0 : r0 = h0 := by rw [hres] at hg0; simpa using hg0
  rw [hres, hr0] at hms0
  have htail : Multiset.ofList rt = Multiset.ofList (item :: rest) := by
    have := hms0
    rw [← Multiset.cons_coe, ← Multiset.cons_coe] at this
    exact (Multiset.cons_inj_right h0).mp this
  rw [hres]
  show Multiset.ofList rt + {(h0 :: h1 :: rest).getD 1 0} =
    Multiset.ofList (h1 :: rest) + {item}
  rw [htail, List.getD_cons_succ, List.getD_cons_zero]
  rw [← Multiset.cons_coe, ← Multiset.cons_coe, add_comm _ ({h1} : Multiset ℕ),
    add_comm _ ({item} : Multiset ℕ), Multiset.singleton_add, Multiset.singleton_add,
    Multiset.cons_swap]

/-!  Sorted-list machinery: the k-smallest characterization of the heap
contents (C7). -/

theorem take_orderedInsert : ∀ (l : List ℕ) (x k : ℕ),
    (List.orderedInsert (· ≤ ·) x l).take k =
      (List.orderedInsert (· ≤ ·) x (l.take k)).take k := by
  intro l
  induction l with
  | nil => intro x k; simp
  | cons b t ih =>
    intro x k
    by_cases hxb : x ≤ b
    · cases k with
      | zero => rfl
      | succ k =>
        have h2 : List.orderedInsert (· ≤ ·) x (b :: t.take k) = x :: b :: t.take k :=
          List.orderedInsert_of_le _ _ hxb
        rw [show (b :: t).take (k + 1) = b :: t.take k from List.take_succ_cons, h2,
          List.orderedInsert_of_le _ _ hxb, List.take_succ_cons, List.take_succ_cons]
        congr 1
        cases k with
        | zero => rfl
        | succ k =>
          rw [List.take_succ_cons, List.take_succ_cons, List.take_take]
          congr 2
          omega
    · have hoi : List.orderedInsert (· ≤ ·) x (b :: t) =
          b :: List.orderedInsert (· ≤ ·) x t := by
        simp only [List.orderedInsert]
        rw [if_neg hxb]
      cases k with
      | zero => rfl
      | succ k =>
        rw [hoi, List.take_succ_cons, List.take_succ_cons]
        have hoi2 : List.orderedInsert (· ≤ ·) x (b :: t.take k) =
            b :: List.orderedInsert (· ≤ ·) x (t.take k) := by
          simp only [List.orderedInsert]
          rw [if_neg hxb]
        rw [hoi2, List.take_succ_cons]
        congr 1
        exact ih x k

theorem sorted_replicate (n a : ℕ) : List.Sorted (· ≤ ·) (List.replicate n a) := by
  show (List.replicate n a).Pairwise (· ≤ ·)
  rw [List.pairwise_replicate]
  right
  exact le_rfl

theorem max_of_sorted_concat (t : List ℕ) (m : ℕ)
    (hs : List.Sorted (· ≤ ·) (t ++ [m])) : ∀ x ∈ t ++ [m], x ≤ m := by
  intro x hx
  rcases List.mem_append.mp hx with h | h
  · exact (List.pairwise_append.mp hs).2.2 x h m (by simp)
  · rw [List.mem_singleton.mp h]

theorem sorted_take_insert_step (sc : List ℕ) (c : ℕ) (hlen : sc.length = c)
    (hsc : List.Sorted (· ≤ ·) sc) (item r : ℕ)
    (hmem : r ∈ sc) (hmax : ∀ y ∈ sc, y ≤ r) :
    (item < r →
      Multiset.ofList ((List.orderedInsert (· ≤ ·) item sc).take c) + {r} =
        Multiset.ofList sc + {item}) ∧
    (¬ item < r →
      Multiset.ofList ((List.orderedInsert (· ≤ ·) item sc).take c) =
        Multiset.ofList sc) := by
  have hoilen : (List.orderedInsert (· ≤ ·) item sc).length = c + 1 := by
    rw [List.orderedInsert_length, hlen]
  have hoisorted : List.Sorted (· ≤ ·) (List.orderedInsert (· ≤ ·) item sc) :=
    List.Sorted.orderedInsert item sc hsc
  have hoine : List.orderedInsert (· ≤ ·) item sc ≠ [] := by
    intro h
    rw [h] at hoilen
    simp at hoilen
  obtain ⟨t, m, hoi⟩ : ∃ t m,
      List.orderedInsert (· ≤ ·) item sc = t ++ [m] :=
    ⟨(List.orderedInsert (· ≤ ·) item sc).dropLast,
      (List.orderedInsert (· ≤ ·) item sc).getLast hoine,
      (List.dropLast_append_getLast hoine).symm⟩
  have htlen : t.length = c := by
    rw [hoi] at hoilen
    rw [List.length_append, List.length_singleton] at hoilen
    omega
  have htake : (List.orderedInsert (· ≤ ·) item sc).take c = t := by
    rw [hoi, ← htlen, List.take_left]
  have hmperm : Multiset.ofList t + {m} = {item} + Multiset.ofList sc := by
    have hp : Multiset.ofList (List.orderedInsert (· ≤ ·) item sc) =
        Multiset.ofList (item :: sc) :=
      Multiset.coe_eq_coe.mpr (List.perm_orderedInsert _ item sc)
    rw [hoi] at hp
    have hsplit : Multiset.ofList (t ++ [m]) = Multiset.ofList t + {m} := rfl
    rw [hsplit] at hp
    rw [hp, ← Multiset.cons_coe, ← Multiset.singleton_add]
  have hmmax : ∀ x ∈ List.orderedInsert (· ≤ ·) item sc, x ≤ m := by
    rw [hoi]
    exact max_of_sorted_concat t m (hoi ▸ hoisorted)
  have hmm : m = item ∨ m ∈ sc := by
    have hmmem : m ∈ List.orderedInsert (· ≤ ·) item sc := by
      rw [hoi]; simp
    exact (List.mem_orderedInsert _).mp hmmem
  have hrin : r ∈ List.orderedInsert (· ≤ ·) item sc :=
    (List.mem_orderedInsert _).mpr (Or.inr hmem)
  have hitemin : item ∈ List.orderedInsert (· ≤ ·) item sc :=
    (List.mem_orderedInsert _).mpr (Or.inl rfl)
  constructor
  · intro hir
    have hmr : m = r := by
      have hrm : r ≤ m := hmmax r hrin
      rcases hmm with rfl | hmsc
      · omega
      · exact le_antisymm (hmax m hmsc) hrm
    subst hmr
    rw [htake, hmperm, add_comm]
  · intro hir
    have hmi : m = item := by
      have him : item ≤ m := hmmax item hitemin
      rcases hmm with rfl | hmsc
      · rfl
      · have := hmax m hmsc
        omega
    rw [htake]
    have hthis := hmperm
    rw [hmi, add_comm (Multiset.ofList t) ({item} : Multiset ℕ)] at hthis
    exact add_left_cancel hthis

theorem mem_filter_lt {ps : List ℕ} {x : ℕ}
    (hx : x ∈ ps.filter (fun y => decide (y < sentinel))) : x < sentinel := by
  have := List.mem_filter.mp hx
  exact of_decide_eq_true this.2

theorem sortPad (F : List ℕ) (c : ℕ) (hF : ∀ x ∈ F, x < sentinel) :
    List.insertionSort (· ≤ ·) (F ++ List.replicate c sentinel) =
      List.insertionSort (· ≤ ·) F ++ List.replicate c sentinel := by
  have hsorted : List.Sorted (· ≤ ·)
      (List.insertionSort (· ≤ ·) F ++ List.replicate c sentinel) := by
    show (List.insertionSort (· ≤ ·) F ++ List.replicate c sentinel).Pairwise (· ≤ ·)
    rw [List.pairwise_append]
    refine ⟨List.sorted_insertionSort _ _, sorted_replicate c sentinel, ?_⟩
    intro a ha b hb
    have haF : a ∈ F := (List.perm_insertionSort (· ≤ ·) F).subset ha
    have h1 := hF a haF
    have h2 : b = sentinel := List.eq_of_mem_replicate hb
    omega
  exact List.eq_of_perm_of_sorted
    ((List.perm_insertionSort _ _).trans
      (((List.perm_insertionSort (· ≤ ·) F).symm).append_right _))
    (List.sorted_insertionSort _ _) hsorted

theorem L_snoc (ps : List ℕ) (item c : ℕ) :
    List.insertionSort (· ≤ ·)
        (((ps ++ [item]).filter (fun y => decide (y < sentinel))) ++
          List.replicate c sentinel) =
      if item < sentinel then
        List.orderedInsert (· ≤ ·) item
          (List.insertionSort (· ≤ ·)
            ((ps.filter (fun y => decide (y < sentinel))) ++ List.replicate c sentinel))
      else
        List.insertionSort (· ≤ ·)
          ((ps.filter (fun y => decide (y < sentinel))) ++ List.replicate c sentinel) := by
  rw [List.filter_append]
  by_cases hi : item < sentinel
  · rw [if_pos hi]
    have hfi : List.filter (fun y => decide (y < sentinel)) [item] = [item] := by
      simp [hi]
    rw [hfi]
    have hperm : List.Perm
        (List.insertionSort (· ≤ ·)
          ((ps.filter (fun y => decide (y < sentinel)) ++ [item]) ++
            List.replicate c sentinel))
        (List.orderedInsert (· ≤ ·) item
          (List.insertionSort (· ≤ ·)
            (ps.filter (fun y => decide (y < sentinel)) ++
              List.replicate c sentinel))) := by
      refine (List.perm_insertionSort _ _).trans ?_
      refine List.Perm.trans (List.Perm.append_right _
        (List.perm_append_singleton item _)) ?_
      show List.Perm (item :: (ps.filter (fun y => decide (y < sentinel)) ++
        List.replicate c sentinel)) _
      refine List.Perm.trans (List.Perm.cons item
        (List.perm_insertionSort (· ≤ ·) _).symm) ?_
      exact (List.perm_orderedInsert (· ≤ ·) item _).symm
    exact List.eq_of_perm_of_sorted hperm (List.sorted_insertionSort _ _)
      (List.Sorted.orderedInsert item _ (List.sorted_insertionSort _ _))
  · rw [if_neg hi]
    have hfi : List.filter (fun y => decide (y < sentinel)) [item] = [] := by
      simp [hi]
    rw [hfi, List.append_nil]

theorem take_L_eq (ps : List ℕ) (c : ℕ) :
    Multiset.ofList ((List.insertionSort (· ≤ ·)
        ((ps.filter (fun y => decide (y < sentinel))) ++
          List.replicate c sentinel)).take c) =
      Multiset.ofList (kSmallest c ps) +
        Multiset.replicate (c - (kSmallest c ps).length) sentinel := by
  rw [sortPad _ c (fun x hx => mem_filter_lt hx), kSmallest]
  set sF := List.insertionSort (· ≤ ·) (ps.filter (fun y => decide (y < sentinel)))
    with hsF
  rw [List.take_append_eq_append_take, List.take_replicate]
  have hlen : (sF.take c).length = min c sF.length := by simp
  have harith : min (c - sF.length) c = c - (sF.take c).length := by
    rw [hlen]; omega
  rw [harith]
  rw [show Multiset.ofList (sF.take c ++
      List.replicate (c - (sF.take c).length) sentinel) =
      Multiset.ofList (sF.take c) +
        Multiset.ofList (List.replicate (c - (sF.take c).length) sentinel) from rfl]
  rw [Multiset.coe_replicate]

theorem getD_replicate_lt (n a i : ℕ) (h : i < n) :
    (List.replicate n a).getD i 0 = a := by
  rw [List.getD_eq_getElem?_getD, List.getElem?_replicate_of_lt h]
  rfl

theorem getD_one_mem_drop_one (l : List ℕ) (h : 2 ≤ l.length) :
    l.getD 1 0 ∈ l.drop 1 := by
  cases l with
  | nil => simp at h
  | cons a t =>
    cases t with
    | nil => simp at h
    | cons b u => exact List.mem_cons_self b u

theorem drop_one_le_root (l : List ℕ) (hmx : isMaxHeap l) :
    ∀ x ∈ l.drop 1, x ≤ l.getD 1 0 := by
  intro x hx
  obtain ⟨i, hi, hgi⟩ := List.mem_iff_getElem.mp hx
  rw [List.getElem_drop] at hgi
  have h1i : 1 + i < l.length := by rw [List.length_drop] at hi; omega
  have hval : l.getD (1 + i) 0 = x := by
    rw [List.getD_eq_getElem?_getD, List.getElem?_eq_getElem h1i, ← hgi]
    rfl
  rw [← hval]
  exact isMaxHeap_root_max l hmx (1 + i) (by omega) (by omega)

theorem take_sorted_le_sentinel (ps : List ℕ) (c : ℕ) :
    ∀ y ∈ (List.insertionSort (· ≤ ·)
      ((ps.filter (fun y => decide (y < sentinel))) ++
        List.replicate c sentinel)).take c, y ≤ sentinel := by
  intro y hy
  have hy2 : y ∈ List.insertionSort (· ≤ ·)
      ((ps.filter (fun y => decide (y < sentinel))) ++ List.replicate c sentinel) :=
    (List.take_sublist _ _).subset hy
  have hy3 : y ∈ (ps.filter (fun y => decide (y < sentinel))) ++
      List.replicate c sentinel :=
    (List.perm_insertionSort _ _).subset hy2
  rcases List.mem_append.mp hy3 with h | h
  · exact le_of_lt (mem_filter_lt h)
  · rw [List.eq_of_mem_replicate h]

/-- The fold invariant of the bounded max-heap: length, unused slot 0, the
max-heap property, and the content as the `c` smallest pushed sub-sentinel
values padded with sentinels (in sorted form). -/
theorem heap_fold_invariant (c : ℕ) (hc : 0 < c) (ps : List ℕ) :
    (ps.foldl heapUpdate (initHeap c)).length = c + 1 ∧
    (ps.foldl heapUpdate (initHeap c)).getD 0 0 = sentinel ∧
    isMaxHeap (ps.foldl heapUpdate (initHeap c)) ∧
    Multiset.ofList ((ps.foldl heapUpdate (initHeap c)).drop 1) =
      Multiset.ofList ((List.insertionSort (· ≤ ·)
        ((ps.filter (fun y => decide (y < sentinel))) ++
          List.replicate c sentinel)).take c) := by
  induction ps using List.reverseRecOn with
  | nil =>
    simp only [List.foldl_nil]
    refine ⟨by simp [initHeap], getD_replicate_lt (c + 1) sentinel 0 (by omega), ?_, ?_⟩
    · intro j h2 hlen
      rw [initHeap, List.length_replicate] at hlen
      rw [initHeap, getD_replicate_lt _ _ _ (by omega : j < c + 1),
        getD_replicate_lt _ _ _ (by omega : j / 2 < c + 1)]
    · show Multiset.ofList ((List.replicate (c + 1) sentinel).drop 1) = _
      rw [show (List.replicate (c + 1) sentinel).drop 1 = List.replicate c sentinel
        from rfl]
      rw [show List.filter (fun y => decide (y < sentinel)) [] = [] from rfl,
        List.nil_append,
        List.Sorted.insertionSort_eq (sorted_replicate c sentinel),
        List.take_replicate]
      rw [Nat.min_self]
  | append_singleton ps item ih =>
    obtain ⟨hlen, h0, hmx, hms⟩ := ih
    rw [List.foldl_append]
    rw [show [item].foldl heapUpdate (ps.foldl heapUpdate (initHeap c)) =
      heapUpdate (ps.foldl heapUpdate (initHeap c)) item from rfl]
    set heap := ps.foldl heapUpdate (initHeap c) with hheap
    set sc := (List.insertionSort (· ≤ ·)
      ((ps.filter (fun y => decide (y < sentinel))) ++
        List.replicate c sentinel)).take c with hsc
    have hsc_sorted : List.Sorted (· ≤ ·) sc :=
      List.Pairwise.sublist (List.take_sublist _ _) (List.sorted_insertionSort _ _)
    have hsc_len : sc.length = c := by
      rw [hsc, List.length_take]
      have hL : (List.insertionSort (· ≤ ·)
          ((ps.filter (fun y => decide (y < sentinel))) ++
            List.replicate c sentinel)).length =
          (ps.filter (fun y => decide (y < sentinel))).length + c := by
        rw [(List.perm_insertionSort _ _).length_eq, List.length_append,
          List.length_replicate]
      rw [hL]
      omega
    have hroot_mem : heap.getD 1 0 ∈ sc := by
      rw [← Multiset.mem_coe, ← hms, Multiset.mem_coe]
      exact getD_one_mem_drop_one heap (by omega)
    have hroot_max : ∀ y ∈ sc, y ≤ heap.getD 1 0 := by
      intro y hy
      apply drop_one_le_root heap hmx
      rw [← Multiset.mem_coe, hms, Multiset.mem_coe]
      exact hy
    obtain ⟨step1, step2⟩ := sorted_take_insert_step sc c hsc_len hsc_sorted item
      (heap.getD 1 0) hroot_mem hroot_max
    have hrootS : heap.getD 1 0 ≤ sentinel :=
      take_sorted_le_sentinel ps c _ hroot_mem
    refine ⟨by rw [heapUpdate_length, hlen], by rw [heapUpdate_getD0]; exact h0,
      heapUpdate_isMaxHeap heap item hmx, ?_⟩
    rw [L_snoc]
    by_cases hit : item < heap.getD 1 0
    · have hitS : item < sentinel := lt_of_lt_of_le hit hrootS
      rw [if_pos hitS, take_orderedInsert]
      have hstep := step1 hit
      have hheapstep := heapUpdate_multiset heap item (by omega) hit
      rw [hms] at hheapstep
      exact add_right_cancel (hheapstep.trans hstep.symm)
    · rw [heapUpdate, if_neg hit]
      by_cases hitS : item < sentinel
      · rw [if_pos hitS, take_orderedInsert, step2 hit]
        exact hms
      · rw [if_neg hitS]
        exact hms

/-- C7 counterexample: after `heapUpdate(initHeap 2, 5)` the retained values
are `[5]` but slot 1 still holds the sentinel (so slot 1 is not the maximum of
the retained values while sentinels remain), and pushing the sentinel value
itself onto a fresh capacity-1 heap retains nothing (so the retained set is
not "all values pushed" when fewer than `courses` have been pushed). -/
theorem heapUpdate_counterexample :
    ((heapUpdate (initHeap 2) 5).drop 1).filter (fun x => x != sentinel) = [5] ∧
    (heapUpdate (initHeap 2) 5).getD 1 0 = sentinel ∧
    sentinel ≠ 5 ∧
    ((heapUpdate (initHeap 1) sentinel).drop 1).filter (fun x => x != sentinel) = [] ∧
    ([] : List ℕ) ≠ [sentinel] := by decide

/-- C7 (amended): for a 1-based max-heap of capacity `courses + 1` initialized
with the sentinel, after any sequence of `heapUpdate` calls: the max-heap
property holds; slot 1 is the maximum over slots `1 .. courses` (hence the
sentinel while unfilled slots remain, and the maximum retained value once the
heap is full); at most `courses` non-sentinel values are retained; and the
retained non-sentinel values are exactly (as a multiset) the `courses` smallest
of the pushed values that are below the sentinel — pushes `≥` sentinel are
no-ops — or all of them if fewer have been pushed. -/
theorem heapUpdate_invariant (courses : ℕ) (ps : List ℕ) (hc : 0 < courses) :
    isMaxHeap (ps.foldl heapUpdate (initHeap courses)) ∧
    (ps.foldl heapUpdate (initHeap courses)).getD 1 0 ∈
      (ps.foldl heapUpdate (initHeap courses)).drop 1 ∧
    (∀ x ∈ (ps.foldl heapUpdate (initHeap courses)).drop 1,
      x ≤ (ps.foldl heapUpdate (initHeap courses)).getD 1 0) ∧
    (((ps.foldl heapUpdate (initHeap courses)).drop 1).filter
      (fun x => x != sentinel)).length ≤ courses ∧
    Multiset.ofList (((ps.foldl heapUpdate (initHeap courses)).drop 1).filter
        (fun x => x != sentinel)) =
      Multiset.ofList (kSmallest courses ps) := by
  obtain ⟨hlen, h0, hmx, hms⟩ := heap_fold_invariant courses hc ps
  set heap := ps.foldl heapUpdate (initHeap courses) with hheap
  have hperm : (heap.drop 1).Perm
      ((List.insertionSort (· ≤ ·)
        ((ps.filter (fun y => decide (y < sentinel))) ++
          List.replicate courses sentinel)).take courses) :=
    Multiset.coe_eq_coe.mp hms
  have hdroplen : (heap.drop 1).length = courses := by
    rw [List.length_drop, hlen]
    omega
  refine ⟨hmx, getD_one_mem_drop_one heap (by omega), drop_one_le_root heap hmx, ?_, ?_⟩
  · calc ((heap.drop 1).filter (fun x => x != sentinel)).length
        ≤ (heap.drop 1).length := List.length_filter_le _ _
      _ = courses := hdroplen
  · have hfperm := hperm.filter (fun x => x != sentinel)
    rw [Multiset.coe_eq_coe.mpr hfperm]
    have hks : (kSmallest courses ps).filter (fun x => x != sentinel) =
        kSmallest courses ps := by
      rw [List.filter_eq_self]
      intro a ha
      have haS : a < sentinel := by
        rw [kSmallest] at ha
        exact mem_filter_lt ((List.perm_insertionSort _ _).subset
          ((List.take_sublist _ _).subset ha))
      simp [Nat.ne_of_lt haS]
    have hrepl : (List.replicate (courses - (kSmallest courses ps).length)
        sentinel).filter (fun x => x != sentinel) = [] := by
      apply List.filter_eq_nil_iff.mpr
      intro a ha
      rw [List.eq_of_mem_replicate ha]
      simp
    have hlist : (List.insertionSort (· ≤ ·)
        ((ps.filter (fun y => decide (y < sentinel))) ++
          List.replicate courses sentinel)).take courses =
        kSmallest courses ps ++
          List.replicate (courses - (kSmallest courses ps).length) sentinel := by
      rw [sortPad _ _ (fun x hx => mem_filter_lt hx), List.take_append_eq_append_take,
        List.take_replicate, kSmallest]
      congr 1
      rw [List.length_take]
      congr 1
      omega
    rw [hlist, List.filter_append, hks, hrepl, List.append_nil]

/-- C7 witness: the amended invariant instantiated at capacity 2 with pushes
`[5, 3, 7, 2]`. -/
theorem heapUpdate_invariant_witness :
    isMaxHeap (([5, 3, 7, 2] : List ℕ).foldl heapUpdate (initHeap 2)) ∧
    (([5, 3, 7, 2] : List ℕ).foldl heapUpdate (initHeap 2)).getD 1 0 ∈
      (([5, 3, 7, 2] : List ℕ).foldl heapUpdate (initHeap 2)).drop 1 ∧
    (∀ x ∈ (([5, 3, 7, 2] : List ℕ).foldl heapUpdate (initHeap 2)).drop 1,
      x ≤ (([5, 3, 7, 2] : List ℕ).foldl heapUpdate (initHeap 2)).getD 1 0) ∧
    (((([5, 3, 7, 2] : List ℕ).foldl heapUpdate (initHeap 2)).drop 1).filter
      (fun x => x != sentinel)).length ≤ 2 ∧
    Multiset.ofList (((([5, 3, 7, 2] : List ℕ).foldl heapUpdate (initHeap 2)).drop 1).filter
        (fun x => x != sentinel)) =
      Multiset.ofList (kSmallest 2 [5, 3, 7, 2]) :=
  heapUpdate_invariant 2 [5, 3, 7, 2] (by decide)

/-!  C2: shape of the `shinglesCalc` output. -/

theorem tabbed_mem : ∀ (heaps : List (List ℕ)) (v : ℕ) (h' : List ℕ),
    h' ∈ tabbed v heaps → ∃ h ∈ heaps, ∃ w, h' = heapUpdate h w := by
  intro heaps
  induction heaps with
  | nil => intro v h' hh; simp [tabbed] at hh
  | cons heap rest ih =>
    intro v h' hh
    rcases List.mem_cons.mp hh with h | h
    · exact ⟨heap, List.mem_cons_self _ _, scramble v, h⟩
    · obtain ⟨g, hg, w, hw⟩ := ih (scramble v) h' h
      exact ⟨g, List.mem_cons_of_mem _ hg, w, hw⟩

theorem calcFold_heapsOK (c : ℕ) :
    ∀ (text : List ℕ) (st : RkWindow × List (List ℕ)),
      (∀ h ∈ st.2, h.length = c + 1 ∧ h.getD 0 0 = sentinel) →
      ∀ h ∈ (text.foldl (fun st x =>
        let ww := RkWindow.hash st.1 x
        match ww.get with
        | some hh => (ww, processHash st.2 hh)
        | none => (ww, st.2)) st).2, h.length = c + 1 ∧ h.getD 0 0 = sentinel := by
  intro text
  induction text with
  | nil => intro st hok h hh; exact hok h hh
  | cons x t ih =>
    intro st hok h hh
    rw [List.foldl_cons] at hh
    refine ih _ ?_ h hh
    intro g hg
    cases hgget : (RkWindow.hash st.1 x).get with
    | none =>
      simp only [hgget] at hg
      exact hok g hg
    | some hh2 =>
      simp only [hgget] at hg
      rw [processHash_eq_tabbed] at hg
      obtain ⟨g0, hg0, w, rfl⟩ := tabbed_mem _ _ _ hg
      obtain ⟨hl, h00⟩ := hok g0 hg0
      exact ⟨by rw [heapUpdate_length, hl], by rw [heapUpdate_getD0, h00]⟩

theorem finalizeHeap_shape (c : ℕ) (heap : List ℕ)
    (hlen : heap.length = c + 1) (h0 : heap.getD 0 0 = sentinel) :
    List.Sorted (· ≤ ·) (finalizeHeap c heap) ∧
      ((finalizeHeap c heap).length = c ∨ (finalizeHeap c heap).length = c + 1) := by
  have hnn : (heap.filter (fun x => x != sentinel)).length ≤ c := by
    obtain ⟨h00, rest, rfl⟩ : ∃ h00 rest, heap = h00 :: rest := by
      cases heap with
      | nil => simp at hlen
      | cons a t => exact ⟨a, t, rfl⟩
    have hh0 : h00 = sentinel := by simpa using h0
    subst hh0
    rw [show List.filter (fun x => x != sentinel) (sentinel :: rest) =
      List.filter (fun x => x != sentinel) rest from by simp]
    calc (rest.filter (fun x => x != sentinel)).length
        ≤ rest.length := List.length_filter_le _ _
      _ = c := by simpa using hlen
  rw [finalizeHeap]
  by_cases h1 : (heap.filter (fun x => x != sentinel)).length = c
  · rw [if_pos h1]
    refine ⟨List.sorted_insertionSort _ _, Or.inl ?_⟩
    rw [(List.perm_insertionSort _ _).length_eq]
    exact h1
  · rw [if_neg h1]
    by_cases h2 : (heap.filter (fun x => x != sentinel)).length = 0
    · rw [if_pos h2]
      exact ⟨sorted_replicate c 0, Or.inl (List.length_replicate c 0)⟩
    · rw [if_neg h2]
      refine ⟨List.Pairwise.sublist (List.take_sublist _ _)
        (List.sorted_insertionSort _ _), ?_⟩
      have hnnpos : 0 < (heap.filter (fun x => x != sentinel)).length :=
        Nat.pos_of_ne_zero h2
      have hnnlt : (heap.filter (fun x => x != sentinel)).length < c := by omega
      obtain ⟨hb1, hb2⟩ := ceil_div_bounds c _ hnnpos hnnlt
      rw [Nat.mul_comm] at hb1 hb2
      rw [List.length_take, (List.perm_insertionSort _ _).length_eq,
        List.length_flatten, List.map_replicate, List.sum_replicate, smul_eq_mul]
      omega

/-- C2 counterexample: for the non-empty text `[0, 1, 2]` with
`window = 2 ≤ len(text)` and `courses = 3`, the (single) tab list produced by
`shinglesCalc` has length 4, not `courses = 3` (two retained values are
replicated to 4 elements and the truncation bound is `courses + 1`). -/
theorem shinglesCalc_len_counterexample :
    ([0, 1, 2] : List ℕ) ≠ [] ∧ (2 : ℕ) ≤ ([0, 1, 2] : List ℕ).length ∧
    ((shinglesCalc [0, 1, 2] 2 3 1).getD 0 []).length = 4 ∧ (4 : ℕ) ≠ 3 := by decide

/-- C2 (amended): every inner list of `shinglesCalc` is sorted ascending, and
its length is `courses` or `courses + 1` (the latter arises via the
`courses + 1` truncation when `0 < n < courses` values are retained and `n`
does not divide `courses`).  `0 < courses` is assumed: the Python code indexes
`heap[1]` and would fail on `courses = 0`. -/
theorem shinglesCalc_tab_shape (text : List ℕ) (window courses tabs : ℕ)
    (hc : 0 < courses) :
    ∀ l ∈ shinglesCalc text window courses tabs,
      List.Sorted (· ≤ ·) l ∧ (l.length = courses ∨ l.length = courses + 1) := by
  intro l hl
  rw [shinglesCalc] at hl
  obtain ⟨heap, hheap, rfl⟩ := List.mem_map.mp hl
  have hok := calcFold_heapsOK courses text
    (RkWindow.mkNew window, List.replicate tabs (initHeap courses)) ?_ heap hheap
  · exact finalizeHeap_shape courses heap hok.1 hok.2
  · intro h hh
    have hinit : h = initHeap courses := List.eq_of_mem_replicate hh
    subst hinit
    exact ⟨by simp [initHeap], getD_replicate_lt _ _ _ (by omega)⟩

/-- C2 witness: the amended theorem at text `[5, 6, 7, 8]`, `window = 2`,
`courses = 3`, `tabs = 2` (three hashes are retained, so the length is exactly
`courses`). -/
theorem shinglesCalc_tab_shape_witness :
    List.Sorted (· ≤ ·) ((shinglesCalc [5, 6, 7, 8] 2 3 2).getD 0 []) ∧
    (((shinglesCalc [5, 6, 7, 8] 2 3 2).getD 0 []).length = 3 ∨
      ((shinglesCalc [5, 6, 7, 8] 2 3 2).getD 0 []).length = 3 + 1) :=
  shinglesCalc_tab_shape [5, 6, 7, 8] 2 3 2 (by decide) _ (by decide)

example : popCount 0 = 0 := by decide
example : popCount 255 = 8 := by decide
example : scramble 0 = 9223372036854775783 := by decide
example : heapUpdate (initHeap 2) 5 = [sentinel, sentinel, 5] := by decide
example : shinglesCalc [] 32 29 10 = List.replicate 10 (List.replicate 29 0) := by decide
example : simHash [0, 0, 0] = 0 := by decide

end Simhash
